import Mathlib

/-!
# Verification of `fast-sin.cpp`

A shallow embedding of `src/assignment_3/fast-sin.cpp` over the real numbers.
Doubles are modelled as real numbers, 4-lane batches as functions `Fin 4 → ℝ`,
nullable flag arrays as `Option (Fin 4 → Bool)`, and the two compile-time
hardware branches of `sin4_intrin` as an explicit `SimdSupport` parameter.
The `while` loop of `angle_transform` becomes a well-founded recursion.
-/

namespace FastSin

open Real Finset

noncomputable section

/-- Coefficient `c3  = -1/(((double)2)*3)` from the source. -/
def c3 : ℝ := -1/((2:ℝ)*3)

/-- Coefficient `c5  =  1/(((double)2)*3*4*5)` from the source. -/
def c5 : ℝ := 1/((2:ℝ)*3*4*5)

/-- Coefficient `c7  = -1/(((double)2)*3*4*5*6*7)` from the source. -/
def c7 : ℝ := -1/((2:ℝ)*3*4*5*6*7)

/-- Coefficient `c9  =  1/(((double)2)*3*4*5*6*7*8*9)` from the source. -/
def c9 : ℝ := 1/((2:ℝ)*3*4*5*6*7*8*9)

/-- Coefficient `c11 = -1/(((double)2)*3*4*5*6*7*8*9*10*11)` from the source. -/
def c11 : ℝ := -1/((2:ℝ)*3*4*5*6*7*8*9*10*11)

/-- Coefficient `c2 = -1/((double)2)` from the source. -/
def c2 : ℝ := -1/(2:ℝ)

/-- Coefficient `c4 =  1/(((double)2)*3*4)` from the source. -/
def c4 : ℝ := 1/((2:ℝ)*3*4)

/-- Coefficient `c6 = -1/(((double)2)*3*4*5*6)` from the source. -/
def c6 : ℝ := -1/((2:ℝ)*3*4*5*6)

/-- Coefficient `c8 =  1/(((double)2)*3*4*5*6*7*8)` from the source. -/
def c8 : ℝ := 1/((2:ℝ)*3*4*5*6*7*8)

/-- Coefficient `c10 = -1/(((double)2)*3*4*5*6*7*8*9*10)` from the source. -/
def c10 : ℝ := -1/((2:ℝ)*3*4*5*6*7*8*9*10)

/-- `sin4_reference`: the platform sine on each of the 4 lanes. -/
def sin4_reference (x : Fin 4 → ℝ) : Fin 4 → ℝ := fun i => Real.sin (x i)

/-- `sin4_taylor(sinx, x, sign_vec, sin_cos_vec)`.  The C++ per-lane loop body:
when `sin_cos_vec` is non-null and `sin_cos_vec[i] == false` it evaluates the
degree-10 cosine polynomial and multiplies by `sign_vec[i] ? 1 : -1`; otherwise
it evaluates the degree-11 sine polynomial and multiplies by
`(sin_cos_vec != nullptr && sign_vec[i] == false) ? -1 : 1`.
The null pointer becomes `none`; `sign_vec` is modelled total because the
source never tests it for null. -/
def sin4_taylor (x : Fin 4 → ℝ) (sign_vec : Fin 4 → Bool)
    (sin_cos_vec : Option (Fin 4 → Bool)) : Fin 4 → ℝ := fun i =>
  if sin_cos_vec ≠ none ∧ (sin_cos_vec.getD (fun _ => true)) i = false then
    let x0 : ℝ := 1
    let x1 := x i
    let x2 := x1 * x1
    let x4 := x2 * x2
    let x6 := x2 * x4
    let x8 := x2 * x6
    let x10 := x2 * x8
    let s := x0 + x2 * c2 + x4 * c4 + x6 * c6 + x8 * c8 + x10 * c10
    s * (if sign_vec i then 1 else -1)
  else
    let x1 := x i
    let x2 := x1 * x1
    let x3 := x1 * x2
    let x5 := x3 * x2
    let x7 := x5 * x2
    let x9 := x7 * x2
    let x11 := x9 * x2
    let s := x1 + x3 * c3 + x5 * c5 + x7 * c7 + x9 * c9 + x11 * c11
    s * (if sin_cos_vec ≠ none ∧ sign_vec i = false then -1 else 1)

/-- The compile-time hardware capability that selects the branch of
`sin4_intrin`: `__AVX__`, `__SSE2__`, or neither. -/
inductive SimdSupport
  | avx
  | sse2
  | nosimd
deriving DecidableEq

/-- `sin4_intrin`: with AVX, one 4-wide fused evaluation of `x1 + x3*c3`;
with SSE2, the same arithmetic on two 2-wide halves; otherwise the
fallback call to `sin4_reference`. -/
def sin4_intrin (hw : SimdSupport) (x : Fin 4 → ℝ) : Fin 4 → ℝ :=
  match hw with
  | SimdSupport.avx => fun i =>
      let x1 := x i
      let x2 := x1 * x1
      let x3 := x1 * x2
      x1 + x3 * c3
  | SimdSupport.sse2 => fun i =>
      let x1 := x i
      let x2 := x1 * x1
      let x3 := x1 * x2
      x1 + x3 * c3
  | SimdSupport.nosimd => sin4_reference x

/-- `sin4_vector`: the `Vec<double,4>` wrapper computes lane-wise, so each
lane is the degree-11 ladder `x1 + x3*c3 + x5*c5 + x7*c7 + x9*c9 + x11*c11`. -/
def sin4_vector (x : Fin 4 → ℝ) : Fin 4 → ℝ := fun i =>
  let x1 := x i
  let x2 := x1 * x1
  let x3 := x1 * x2
  let x5 := x2 * x3
  let x7 := x2 * x5
  let x9 := x2 * x7
  let x11 := x2 * x9
  x1 + x3 * c3 + x5 * c5 + x7 * c7 + x9 * c9 + x11 * c11

set_option linter.unusedVariables false in
/-- `cos4_vector`: lane-wise transcription of the source, including the
unused `x12` and the accumulation `s = x0; s += x0 + x2*c2 + ... + x10*c10;`
(note the second `x0`). -/
def cos4_vector (x : Fin 4 → ℝ) : Fin 4 → ℝ := fun i =>
  let x0 : ℝ := 1
  let x1 := x i
  let x2 := x1 * x1
  let x4 := x2 * x2
  let x6 := x2 * x4
  let x8 := x2 * x6
  let x10 := x2 * x8
  let x12 := x2 * x10
  let s := x0
  s + (x0 + x2 * c2 + x4 * c4 + x6 * c6 + x8 * c8 + x10 * c10)

/-- `err(x, y, N)` with `N = 4`: running maximum of `fabs(x[i]-y[i])`
starting from 0, as in the source loop. -/
def err (x y : Fin 4 → ℝ) : ℝ :=
  (List.finRange 4).foldl (fun e i => max e |x i - y i|) 0

/-- Auxiliary: the termination measure of the reduction loop strictly
decreases when one step moves `a` to `b` and the guard held at `a`. -/
lemma angle_measure_lt {a b : ℝ} (ha : Real.pi/4 < |a|)
    (hb : |b| ≤ Real.pi/4 ∨ |b| ≤ |a| - Real.pi/2) :
    Nat.ceil ((|b| - Real.pi/4) / (Real.pi/2)) <
      Nat.ceil ((|a| - Real.pi/4) / (Real.pi/2)) := by
  have hhalf : (0:ℝ) < Real.pi/2 := by linarith [Real.pi_pos]
  have hpos : 0 < (|a| - Real.pi/4) / (Real.pi/2) := div_pos (by linarith) hhalf
  have hone : 1 ≤ Nat.ceil ((|a| - Real.pi/4) / (Real.pi/2)) := by
    rw [Nat.one_le_iff_ne_zero]
    intro h0
    have := Nat.ceil_eq_zero.mp h0
    linarith
  rcases hb with hb | hb
  · have hb0 : (|b| - Real.pi/4) / (Real.pi/2) ≤ 0 :=
      div_nonpos_of_nonpos_of_nonneg (by linarith) (le_of_lt hhalf)
    have hz : Nat.ceil ((|b| - Real.pi/4) / (Real.pi/2)) = 0 := Nat.ceil_eq_zero.mpr hb0
    omega
  · have h2 : (|b| - Real.pi/4) / (Real.pi/2) ≤ ((|a| - Real.pi/4) - Real.pi/2) / (Real.pi/2) :=
      (div_le_div_iff_of_pos_right hhalf).mpr (by linarith)
    have h3 : ((|a| - Real.pi/4) - Real.pi/2) / (Real.pi/2) =
        (|a| - Real.pi/4) / (Real.pi/2) - 1 := by
      field_simp
      ring
    have h4 : (|b| - Real.pi/4) / (Real.pi/2) ≤
        ((Nat.ceil ((|a| - Real.pi/4) / (Real.pi/2)) - 1 : ℕ) : ℝ) := by
      rw [Nat.cast_sub hone, Nat.cast_one]
      have := Nat.le_ceil ((|a| - Real.pi/4) / (Real.pi/2))
      linarith
    have h5 := Nat.ceil_le.mpr h4
    omega

open scoped Classical in
/-- The `while` loop of `angle_transform`, as a recursion on the state
`(angle, sign, sin_cos)`.  Each iteration mirrors lines 155-165 of the
source: test `angle > π/4 || angle < -π/4`, shift by `π/2`, update `sign`
using the current `sin_cos`, then toggle `sin_cos`. -/
def angle_loop (a : ℝ) (sign : Bool) (sin_cos : Bool) : ℝ × Bool × Bool :=
  if a > Real.pi/4 ∨ a < -(Real.pi/4) then
    if a < -(Real.pi/4) then
      angle_loop (a + Real.pi/2) (if sin_cos then !sign else sign) (!sin_cos)
    else
      angle_loop (a - Real.pi/2) (if sin_cos then sign else !sign) (!sin_cos)
  else (a, sign, sin_cos)
termination_by Nat.ceil ((|a| - Real.pi/4) / (Real.pi/2))
decreasing_by
  · rename_i hguard hneg
    have hapos : a < 0 := by linarith [Real.pi_pos]
    apply angle_measure_lt
    · rw [abs_of_neg hapos]
      linarith
    · rcases le_or_lt (a + Real.pi/2) 0 with h0 | h0
      · right
        rw [abs_of_nonpos h0, abs_of_neg hapos]
        linarith
      · left
        rw [abs_of_pos h0]
        linarith
  · rename_i hguard hnot
    have hpa : a > Real.pi/4 := by
      rcases hguard with h | h
      · exact h
      · exact absurd h hnot
    have hapos : 0 < a := by linarith [Real.pi_pos]
    apply angle_measure_lt
    · rwa [abs_of_pos hapos]
    · rcases le_or_lt 0 (a - Real.pi/2) with h0 | h0
      · right
        rw [abs_of_nonneg h0, abs_of_pos hapos]
      · left
        rw [abs_of_neg h0]
        linarith

/-- `angle_transform(angle, sign, sin_cos)`: initializes `*sin_cos = true`
(sine) and `*sign = true` (positive), then runs the reduction loop. -/
def angle_transform (a : ℝ) : ℝ × Bool × Bool := angle_loop a true true

open scoped Classical in
/-- A single iteration of the `while` loop of `angle_transform`
(the identity when the loop guard fails). -/
def angle_step : ℝ × Bool × Bool → ℝ × Bool × Bool
  | (a, sign, sin_cos) =>
    if a > Real.pi/4 ∨ a < -(Real.pi/4) then
      if a < -(Real.pi/4) then
        (a + Real.pi/2, (if sin_cos then !sign else sign), !sin_cos)
      else
        (a - Real.pi/2, (if sin_cos then sign else !sign), !sin_cos)
    else (a, sign, sin_cos)

/-- The value the flag pair reconstructs: `±sin` when `sin_cos` selects sine,
`±cos` when it selects cosine.  Used to state the loop invariant of
`angle_transform`. -/
def recombine (a : ℝ) (sign : Bool) (sin_cos : Bool) : ℝ :=
  (if sign then 1 else -1) * (if sin_cos then Real.sin a else Real.cos a)

end

section SeriesBounds

open Filter

/-- Alternating-series bracketing of `Real.sin` by its partial sums,
for `0 ≤ x ≤ 1`. -/
lemma sin_series_bracket (x : ℝ) (h0 : 0 ≤ x) (h1 : x ≤ 1) (k : ℕ) :
    ∑ i ∈ Finset.range (2*k), (-1)^i * (x^(2*i+1) / (Nat.factorial (2*i+1) : ℝ)) ≤
      Real.sin x ∧
    Real.sin x ≤
      ∑ i ∈ Finset.range (2*k+1), (-1)^i * (x^(2*i+1) / (Nat.factorial (2*i+1) : ℝ)) := by
  set f : ℕ → ℝ := fun n => x^(2*n+1) / (Nat.factorial (2*n+1) : ℝ) with hf
  have hsum : HasSum (fun n => (-1)^n * f n) (Real.sin x) := by
    have h := Real.hasSum_sin x
    simpa [hf, mul_div_assoc] using h
  have hl : Tendsto (fun n => ∑ i ∈ Finset.range n, (-1)^i * f i)
      atTop (nhds (Real.sin x)) := hsum.tendsto_sum_nat
  have hA : Antitone f := by
    apply antitone_nat_of_succ_le
    intro n
    have hx2 : x^(2*(n+1)+1) ≤ x^(2*n+1) := pow_le_pow_of_le_one h0 h1 (by omega)
    have hfact : (Nat.factorial (2*n+1) : ℝ) ≤ (Nat.factorial (2*(n+1)+1) : ℝ) := by
      exact_mod_cast Nat.factorial_le (by omega)
    have hfp : (0:ℝ) < (Nat.factorial (2*n+1) : ℝ) := by positivity
    exact div_le_div₀ (by positivity) hx2 hfp hfact
  exact ⟨Antitone.alternating_series_le_tendsto hl hA k,
    Antitone.tendsto_le_alternating_series hl hA k⟩

/-- Alternating-series bracketing of `Real.cos` by its partial sums,
for `0 ≤ x ≤ 1`. -/
lemma cos_series_bracket (x : ℝ) (h0 : 0 ≤ x) (h1 : x ≤ 1) (k : ℕ) :
    ∑ i ∈ Finset.range (2*k), (-1)^i * (x^(2*i) / (Nat.factorial (2*i) : ℝ)) ≤
      Real.cos x ∧
    Real.cos x ≤
      ∑ i ∈ Finset.range (2*k+1), (-1)^i * (x^(2*i) / (Nat.factorial (2*i) : ℝ)) := by
  set f : ℕ → ℝ := fun n => x^(2*n) / (Nat.factorial (2*n) : ℝ) with hf
  have hsum : HasSum (fun n => (-1)^n * f n) (Real.cos x) := by
    have h := Real.hasSum_cos x
    simpa [hf, mul_div_assoc] using h
  have hl : Tendsto (fun n => ∑ i ∈ Finset.range n, (-1)^i * f i)
      atTop (nhds (Real.cos x)) := hsum.tendsto_sum_nat
  have hA : Antitone f := by
    apply antitone_nat_of_succ_le
    intro n
    have hx2 : x^(2*(n+1)) ≤ x^(2*n) := pow_le_pow_of_le_one h0 h1 (by omega)
    have hfact : (Nat.factorial (2*n) : ℝ) ≤ (Nat.factorial (2*(n+1)) : ℝ) := by
      exact_mod_cast Nat.factorial_le (by omega)
    have hfp : (0:ℝ) < (Nat.factorial (2*n) : ℝ) := by positivity
    exact div_le_div₀ (by positivity) hx2 hfp hfact
  exact ⟨Antitone.alternating_series_le_tendsto hl hA k,
    Antitone.tendsto_le_alternating_series hl hA k⟩

/-- The degree-11 sine partial sum brackets `Real.sin x` for `0 ≤ x ≤ 1`. -/
lemma sin_bracket_deg11 (x : ℝ) (h0 : 0 ≤ x) (h1 : x ≤ 1) :
    x - x^3/6 + x^5/120 - x^7/5040 + x^9/362880 - x^11/39916800 ≤ Real.sin x ∧
    Real.sin x ≤ x - x^3/6 + x^5/120 - x^7/5040 + x^9/362880 - x^11/39916800
      + x^13/6227020800 := by
  have h := sin_series_bracket x h0 h1 3
  have e1 : ∑ i ∈ Finset.range (2*3), (-1:ℝ)^i * (x^(2*i+1) / (Nat.factorial (2*i+1) : ℝ)) =
      x - x^3/6 + x^5/120 - x^7/5040 + x^9/362880 - x^11/39916800 := by
    simp [Finset.sum_range_succ, Nat.factorial]
    ring
  have e2 : ∑ i ∈ Finset.range (2*3+1), (-1:ℝ)^i * (x^(2*i+1) / (Nat.factorial (2*i+1) : ℝ)) =
      x - x^3/6 + x^5/120 - x^7/5040 + x^9/362880 - x^11/39916800 + x^13/6227020800 := by
    simp [Finset.sum_range_succ, Nat.factorial]
    ring
  rw [e1, e2] at h
  exact h

/-- The degree-3 sine partial sum over/under-estimates: `Real.sin x` lies
between `x - x³/6 + x⁵/120 - x⁷/5040` and `x - x³/6 + x⁵/120`
for `0 ≤ x ≤ 1`. -/
lemma sin_bracket_deg3 (x : ℝ) (h0 : 0 ≤ x) (h1 : x ≤ 1) :
    x - x^3/6 + x^5/120 - x^7/5040 ≤ Real.sin x ∧
    Real.sin x ≤ x - x^3/6 + x^5/120 := by
  have h2 := (sin_series_bracket x h0 h1 2).1
  have h1b := (sin_series_bracket x h0 h1 1).2
  have e1 : ∑ i ∈ Finset.range (2*2), (-1:ℝ)^i * (x^(2*i+1) / (Nat.factorial (2*i+1) : ℝ)) =
      x - x^3/6 + x^5/120 - x^7/5040 := by
    simp [Finset.sum_range_succ, Nat.factorial]
    ring
  have e2 : ∑ i ∈ Finset.range (2*1+1), (-1:ℝ)^i * (x^(2*i+1) / (Nat.factorial (2*i+1) : ℝ)) =
      x - x^3/6 + x^5/120 := by
    simp [Finset.sum_range_succ, Nat.factorial]
    ring
  rw [e1] at h2
  rw [e2] at h1b
  exact ⟨h2, h1b⟩

/-- The degree-10 cosine partial sum brackets `Real.cos x` for `0 ≤ x ≤ 1`. -/
lemma cos_bracket_deg10 (x : ℝ) (h0 : 0 ≤ x) (h1 : x ≤ 1) :
    1 - x^2/2 + x^4/24 - x^6/720 + x^8/40320 - x^10/3628800 ≤ Real.cos x ∧
    Real.cos x ≤ 1 - x^2/2 + x^4/24 - x^6/720 + x^8/40320 - x^10/3628800
      + x^12/479001600 := by
  have h := cos_series_bracket x h0 h1 3
  have e1 : ∑ i ∈ Finset.range (2*3), (-1:ℝ)^i * (x^(2*i) / (Nat.factorial (2*i) : ℝ)) =
      1 - x^2/2 + x^4/24 - x^6/720 + x^8/40320 - x^10/3628800 := by
    simp [Finset.sum_range_succ, Nat.factorial]
    ring
  have e2 : ∑ i ∈ Finset.range (2*3+1), (-1:ℝ)^i * (x^(2*i) / (Nat.factorial (2*i) : ℝ)) =
      1 - x^2/2 + x^4/24 - x^6/720 + x^8/40320 - x^10/3628800 + x^12/479001600 := by
    simp [Finset.sum_range_succ, Nat.factorial]
    ring
  rw [e1, e2] at h
  exact h

/-- Remainder bound for the degree-11 sine polynomial on `|x| ≤ 1`. -/
lemma abs_sin_sub_deg11 (x : ℝ) (hx : |x| ≤ 1) :
    |Real.sin x - (x - x^3/6 + x^5/120 - x^7/5040 + x^9/362880 - x^11/39916800)| ≤
      |x|^13/6227020800 := by
  have key : ∀ y : ℝ, 0 ≤ y → y ≤ 1 →
      |Real.sin y - (y - y^3/6 + y^5/120 - y^7/5040 + y^9/362880 - y^11/39916800)| ≤
        y^13/6227020800 := by
    intro y h0 h1
    obtain ⟨hlo, hhi⟩ := sin_bracket_deg11 y h0 h1
    rw [abs_of_nonneg (by linarith)]
    linarith
  rcases le_or_lt 0 x with h0 | h0
  · rw [abs_of_nonneg h0] at hx ⊢
    exact key x h0 hx
  · rw [abs_of_neg h0] at hx ⊢
    have h2 := key (-x) (by linarith) hx
    have e : Real.sin x - (x - x^3/6 + x^5/120 - x^7/5040 + x^9/362880 - x^11/39916800) =
        -(Real.sin (-x) - ((-x) - (-x)^3/6 + (-x)^5/120 - (-x)^7/5040 + (-x)^9/362880
          - (-x)^11/39916800)) := by
      rw [Real.sin_neg]; ring
    rw [e, abs_neg]
    exact h2

/-- Remainder bound for the degree-10 cosine polynomial on `|x| ≤ 1`. -/
lemma abs_cos_sub_deg10 (x : ℝ) (hx : |x| ≤ 1) :
    |Real.cos x - (1 - x^2/2 + x^4/24 - x^6/720 + x^8/40320 - x^10/3628800)| ≤
      |x|^12/479001600 := by
  have key : ∀ y : ℝ, 0 ≤ y → y ≤ 1 →
      |Real.cos y - (1 - y^2/2 + y^4/24 - y^6/720 + y^8/40320 - y^10/3628800)| ≤
        y^12/479001600 := by
    intro y h0 h1
    obtain ⟨hlo, hhi⟩ := cos_bracket_deg10 y h0 h1
    rw [abs_of_nonneg (by linarith)]
    linarith
  rcases le_or_lt 0 x with h0 | h0
  · rw [abs_of_nonneg h0] at hx ⊢
    exact key x h0 hx
  · rw [abs_of_neg h0] at hx ⊢
    have h2 := key (-x) (by linarith) hx
    have e : Real.cos x - (1 - x^2/2 + x^4/24 - x^6/720 + x^8/40320 - x^10/3628800) =
        Real.cos (-x) - (1 - (-x)^2/2 + (-x)^4/24 - (-x)^6/720 + (-x)^8/40320
          - (-x)^10/3628800) := by
      rw [Real.cos_neg]; ring
    rw [e]
    calc |Real.cos (-x) - (1 - (-x)^2/2 + (-x)^4/24 - (-x)^6/720 + (-x)^8/40320
          - (-x)^10/3628800)| ≤ (-x)^12/479001600 := h2
      _ = (-x)^12/479001600 := rfl

/-- On `|x| ≤ 1` the degree-11 truncation error of sine never exceeds the
degree-3 truncation error. -/
lemma sin_deg3_dominates (x : ℝ) (hx : |x| ≤ 1) :
    |Real.sin x - (x - x^3/6 + x^5/120 - x^7/5040 + x^9/362880 - x^11/39916800)| ≤
      |Real.sin x - (x - x^3/6)| := by
  have key : ∀ y : ℝ, 0 ≤ y → y ≤ 1 →
      |Real.sin y - (y - y^3/6 + y^5/120 - y^7/5040 + y^9/362880 - y^11/39916800)| ≤
        |Real.sin y - (y - y^3/6)| := by
    intro y h0 h1
    obtain ⟨hlo11, hhi11⟩ := sin_bracket_deg11 y h0 h1
    obtain ⟨hlo3, hhi3⟩ := sin_bracket_deg3 y h0 h1
    have h5 : y^7 ≤ y^5 := pow_le_pow_of_le_one h0 h1 (by omega)
    have h13 : y^13 ≤ y^5 := pow_le_pow_of_le_one h0 h1 (by omega)
    have h9 : y^11 ≤ y^9 := pow_le_pow_of_le_one h0 h1 (by omega)
    have hy5 : (0:ℝ) ≤ y^5 := by positivity
    rw [abs_of_nonneg (by linarith), abs_of_nonneg (by linarith)]
    linarith
  rcases le_or_lt 0 x with h0 | h0
  · rw [abs_of_nonneg h0] at hx
    exact key x h0 hx
  · rw [abs_of_neg h0] at hx
    have h2 := key (-x) (by linarith) hx
    have e1 : Real.sin x - (x - x^3/6 + x^5/120 - x^7/5040 + x^9/362880 - x^11/39916800) =
        -(Real.sin (-x) - ((-x) - (-x)^3/6 + (-x)^5/120 - (-x)^7/5040 + (-x)^9/362880
          - (-x)^11/39916800)) := by
      rw [Real.sin_neg]; ring
    have e2 : Real.sin x - (x - x^3/6) = -(Real.sin (-x) - ((-x) - (-x)^3/6)) := by
      rw [Real.sin_neg]; ring
    rw [e1, e2, abs_neg, abs_neg]
    exact h2

end SeriesBounds

section LoopLemmas

/-- Unfolding `angle_loop` when the guard holds and the angle is below
`-π/4`. -/
lemma angle_loop_eq_neg {a : ℝ} {s sc : Bool} (h1 : a > Real.pi/4 ∨ a < -(Real.pi/4))
    (h2 : a < -(Real.pi/4)) :
    angle_loop a s sc = angle_loop (a + Real.pi/2) (if sc then !s else s) (!sc) := by
  rw [angle_loop, if_pos h1, if_pos h2]

/-- Unfolding `angle_loop` when the guard holds and the angle is above
`π/4`. -/
lemma angle_loop_eq_pos {a : ℝ} {s sc : Bool} (h1 : a > Real.pi/4 ∨ a < -(Real.pi/4))
    (h2 : ¬(a < -(Real.pi/4))) :
    angle_loop a s sc = angle_loop (a - Real.pi/2) (if sc then s else !s) (!sc) := by
  rw [angle_loop, if_pos h1, if_neg h2]

/-- Unfolding `angle_loop` when the guard fails: the loop exits at once. -/
lemma angle_loop_eq_exit {a : ℝ} {s sc : Bool}
    (h1 : ¬(a > Real.pi/4 ∨ a < -(Real.pi/4))) :
    angle_loop a s sc = (a, s, sc) := by
  rw [angle_loop, if_neg h1]

/-- A step that adds `π/2` preserves the reconstructed value. -/
lemma recombine_step_neg (a : ℝ) (s sc : Bool) :
    recombine (a + Real.pi/2) (if sc then !s else s) (!sc) = recombine a s sc := by
  cases sc <;> cases s <;>
    simp [recombine, Real.sin_add, Real.cos_add]

/-- A step that subtracts `π/2` preserves the reconstructed value. -/
lemma recombine_step_pos (a : ℝ) (s sc : Bool) :
    recombine (a - Real.pi/2) (if sc then s else !s) (!sc) = recombine a s sc := by
  cases sc <;> cases s <;>
    simp [recombine, Real.sin_sub, Real.cos_sub]

/-- Loop invariant: `angle_loop` preserves the reconstructed value. -/
lemma angle_loop_recombine (a : ℝ) (s sc : Bool) :
    recombine (angle_loop a s sc).1 (angle_loop a s sc).2.1 (angle_loop a s sc).2.2 =
      recombine a s sc := by
  induction a, s, sc using angle_loop.induct with
  | case1 a s sc hguard hneg ih =>
    rw [angle_loop_eq_neg hguard hneg]
    exact ih.trans (recombine_step_neg a s sc)
  | case2 a s sc hguard hneg ih =>
    rw [angle_loop_eq_pos hguard hneg]
    exact ih.trans (recombine_step_pos a s sc)
  | case3 a s sc hguard =>
    rw [angle_loop_eq_exit hguard]

/-- The angle left by `angle_loop` lies in `[-π/4, π/4]`. -/
lemma angle_loop_mem (a : ℝ) (s sc : Bool) :
    -(Real.pi/4) ≤ (angle_loop a s sc).1 ∧ (angle_loop a s sc).1 ≤ Real.pi/4 := by
  induction a, s, sc using angle_loop.induct with
  | case1 a s sc hguard hneg ih =>
    rw [angle_loop_eq_neg hguard hneg]
    exact ih
  | case2 a s sc hguard hneg ih =>
    rw [angle_loop_eq_pos hguard hneg]
    exact ih
  | case3 a s sc hguard =>
    rw [angle_loop_eq_exit hguard]
    push_neg at hguard
    exact ⟨hguard.2, hguard.1⟩

/-- `angle_loop` is reached by finitely many iterations of `angle_step`,
at which point the loop guard fails. -/
lemma angle_loop_iterate (a : ℝ) (s sc : Bool) :
    ∃ n : ℕ, angle_step^[n] (a, s, sc) = angle_loop a s sc ∧
      ¬((angle_step^[n] (a, s, sc)).1 > Real.pi/4 ∨
        (angle_step^[n] (a, s, sc)).1 < -(Real.pi/4)) := by
  induction a, s, sc using angle_loop.induct with
  | case1 a s sc hguard hneg ih =>
    simp only [dite_eq_ite] at ih
    obtain ⟨n, hn1, hn2⟩ := ih
    have hstep : angle_step (a, s, sc) = (a + Real.pi/2, (if sc then !s else s), !sc) := by
      simp only [angle_step]
      rw [if_pos hguard, if_pos hneg]
    refine ⟨n + 1, ?_, ?_⟩
    · rw [Function.iterate_succ_apply, hstep, hn1, angle_loop_eq_neg hguard hneg]
    · rw [Function.iterate_succ_apply, hstep]
      exact hn2
  | case2 a s sc hguard hneg ih =>
    simp only [dite_eq_ite] at ih
    obtain ⟨n, hn1, hn2⟩ := ih
    have hstep : angle_step (a, s, sc) = (a - Real.pi/2, (if sc then s else !s), !sc) := by
      simp only [angle_step]
      rw [if_pos hguard, if_neg hneg]
    refine ⟨n + 1, ?_, ?_⟩
    · rw [Function.iterate_succ_apply, hstep, hn1, angle_loop_eq_pos hguard hneg]
    · rw [Function.iterate_succ_apply, hstep]
      exact hn2
  | case3 a s sc hguard =>
    refine ⟨0, ?_, ?_⟩
    · rw [Function.iterate_zero_apply, angle_loop_eq_exit hguard]
    · rw [Function.iterate_zero_apply]
      exact hguard

end LoopLemmas

section LaneLemmas

/-- With a null `sin_cos_vec`, a `sin4_taylor` lane is the plain degree-11
sine polynomial. -/
lemma sin4_taylor_none_lane (x : Fin 4 → ℝ) (sv : Fin 4 → Bool) (i : Fin 4) :
    sin4_taylor x sv none i =
      x i - (x i)^3/6 + (x i)^5/120 - (x i)^7/5040 + (x i)^9/362880
        - (x i)^11/39916800 := by
  simp only [sin4_taylor]
  rw [if_neg (by simp), if_neg (by simp)]
  simp only [c3, c5, c7, c9, c11]
  ring

/-- With flags supplied and the lane selecting cosine, a `sin4_taylor` lane
is the signed degree-10 cosine polynomial. -/
lemma sin4_taylor_cos_lane (x : Fin 4 → ℝ) (sv scv : Fin 4 → Bool) (i : Fin 4)
    (h : scv i = false) :
    sin4_taylor x sv (some scv) i =
      (1 - (x i)^2/2 + (x i)^4/24 - (x i)^6/720 + (x i)^8/40320
        - (x i)^10/3628800) * (if sv i then 1 else -1) := by
  simp only [sin4_taylor]
  rw [if_pos (by simp [h])]
  have e : (1:ℝ) + (x i * x i) * c2 + ((x i * x i) * (x i * x i)) * c4
      + ((x i * x i) * ((x i * x i) * (x i * x i))) * c6
      + ((x i * x i) * ((x i * x i) * ((x i * x i) * (x i * x i)))) * c8
      + ((x i * x i) * ((x i * x i) * ((x i * x i) * ((x i * x i) * (x i * x i))))) * c10 =
      1 - (x i)^2/2 + (x i)^4/24 - (x i)^6/720 + (x i)^8/40320 - (x i)^10/3628800 := by
    simp only [c2, c4, c6, c8, c10]
    ring
  rw [e]

/-- With flags supplied and the lane selecting sine, a `sin4_taylor` lane is
the signed degree-11 sine polynomial. -/
lemma sin4_taylor_sin_lane (x : Fin 4 → ℝ) (sv scv : Fin 4 → Bool) (i : Fin 4)
    (h : scv i = true) :
    sin4_taylor x sv (some scv) i =
      (x i - (x i)^3/6 + (x i)^5/120 - (x i)^7/5040 + (x i)^9/362880
        - (x i)^11/39916800) * (if sv i then 1 else -1) := by
  simp only [sin4_taylor]
  rw [if_neg (by simp [h])]
  cases hs : sv i <;> simp [hs, c3, c5, c7, c9, c11] <;> ring

/-- Each `sin4_vector` lane is the degree-11 sine polynomial. -/
lemma sin4_vector_lane (x : Fin 4 → ℝ) (i : Fin 4) :
    sin4_vector x i =
      x i - (x i)^3/6 + (x i)^5/120 - (x i)^7/5040 + (x i)^9/362880
        - (x i)^11/39916800 := by
  simp only [sin4_vector, c3, c5, c7, c9, c11]
  ring

/-- With hardware support, each `sin4_intrin` lane is the degree-3
truncation. -/
lemma sin4_intrin_lane (hw : SimdSupport) (hhw : hw ≠ SimdSupport.nosimd)
    (x : Fin 4 → ℝ) (i : Fin 4) :
    sin4_intrin hw x i = x i - (x i)^3/6 := by
  cases hw with
  | avx =>
    simp only [sin4_intrin, c3]
    ring
  | sse2 =>
    simp only [sin4_intrin, c3]
    ring
  | nosimd => exact absurd rfl hhw

/-- `err` unfolded over the four lanes. -/
lemma err_eq (x y : Fin 4 → ℝ) :
    err x y = max (max (max (max 0 |x 0 - y 0|) |x 1 - y 1|) |x 2 - y 2|) |x 3 - y 3| := by
  rfl

/-- `err` is monotone under pointwise domination of lane errors. -/
lemma err_le_err (x y z : Fin 4 → ℝ) (h : ∀ i, |x i - y i| ≤ |x i - z i|) :
    err x y ≤ err x z := by
  rw [err_eq, err_eq]
  exact max_le_max (max_le_max (max_le_max (max_le_max le_rfl (h 0)) (h 1)) (h 2)) (h 3)

end LaneLemmas

section ErrorBounds

/-- The degree-11 sine polynomial is within `1e-9` of `Real.sin` on
`|t| ≤ π/4`. -/
lemma abs_sin_err_le (t : ℝ) (ht : |t| ≤ Real.pi/4) :
    |Real.sin t - (t - t^3/6 + t^5/120 - t^7/5040 + t^9/362880 - t^11/39916800)| ≤
      1e-9 := by
  have ht1 : |t| ≤ 1 := le_trans ht (by linarith [Real.pi_le_four])
  have h := abs_sin_sub_deg11 t ht1
  have h13 : |t|^13 ≤ 1 := pow_le_one₀ (abs_nonneg t) ht1
  have hb : |t|^13/6227020800 ≤ 1e-9 := by
    have h2 : |t|^13/6227020800 ≤ 1/6227020800 := by
      gcongr
    have h3 : (1:ℝ)/6227020800 ≤ 1e-9 := by norm_num
    linarith
  linarith

/-- The degree-10 cosine polynomial is within `1e-9` of `Real.cos` on
`|t| ≤ π/4`. -/
lemma abs_cos_err_le (t : ℝ) (ht : |t| ≤ Real.pi/4) :
    |Real.cos t - (1 - t^2/2 + t^4/24 - t^6/720 + t^8/40320 - t^10/3628800)| ≤
      1e-9 := by
  have hq : |t| ≤ 3.15/4 := le_trans ht (by linarith [Real.pi_lt_d2])
  have ht1 : |t| ≤ 1 := le_trans hq (by norm_num)
  have h := abs_cos_sub_deg10 t ht1
  have h12 : |t|^12 ≤ (3.15/4)^12 := pow_le_pow_left₀ (abs_nonneg t) hq 12
  have hb : |t|^12/479001600 ≤ 1e-9 := by
    have h2 : |t|^12/479001600 ≤ (3.15/4)^12/479001600 := by gcongr
    have h3 : ((3.15:ℝ)/4)^12/479001600 ≤ 1e-9 := by norm_num
    linarith
  linarith

end ErrorBounds

section Claims

/-- C2: for every finite angle `a`, the angle value `angle_transform` leaves
behind lies in the closed interval `[-π/4, π/4]`. -/
theorem C2_reduced_angle_in_interval (a : ℝ) :
    -(Real.pi/4) ≤ (angle_transform a).1 ∧ (angle_transform a).1 ≤ Real.pi/4 :=
  angle_loop_mem a true true

/-- C3: for every finite input angle the `while` loop inside
`angle_transform` terminates: finitely many iterations of the loop body
`angle_step` reach a state where the loop guard fails, and that state is
`angle_transform`'s result. -/
theorem C3_reduction_loop_terminates (a : ℝ) :
    ∃ n : ℕ, angle_step^[n] (a, true, true) = angle_transform a ∧
      ¬((angle_step^[n] (a, true, true)).1 > Real.pi/4 ∨
        (angle_step^[n] (a, true, true)).1 < -(Real.pi/4)) :=
  angle_loop_iterate a true true

/-- C5: an angle already in `[-π/4, π/4]`, boundary values included, is
returned unchanged with `sign = true` and `sin_cos = true` (sine), and the
loop body does not fire even once on it. -/
theorem C5_interval_angle_unchanged (a : ℝ) (h1 : -(Real.pi/4) ≤ a)
    (h2 : a ≤ Real.pi/4) :
    angle_transform a = (a, true, true) ∧
    angle_step (a, true, true) = (a, true, true) := by
  have hng : ¬(a > Real.pi/4 ∨ a < -(Real.pi/4)) := by
    push_neg
    exact ⟨h2, h1⟩
  refine ⟨angle_loop_eq_exit hng, ?_⟩
  simp only [angle_step]
  rw [if_neg hng]

/-- Witness for C5 at the boundary input `a = π/4`. -/
theorem C5_interval_angle_unchanged_witness :
    (-(Real.pi/4) ≤ Real.pi/4 ∧ Real.pi/4 ≤ Real.pi/4) ∧
    (angle_transform (Real.pi/4) = (Real.pi/4, true, true) ∧
      angle_step (Real.pi/4, true, true) = (Real.pi/4, true, true)) :=
  ⟨⟨by linarith [Real.pi_pos], le_rfl⟩,
    C5_interval_angle_unchanged (Real.pi/4) (by linarith [Real.pi_pos]) le_rfl⟩

/-- Auxiliary: the loop guard fails at the angle `π/4`. -/
lemma not_guard_pi_div_four :
    ¬(Real.pi/4 > Real.pi/4 ∨ Real.pi/4 < -(Real.pi/4)) := by
  push_neg
  exact ⟨le_rfl, by linarith [Real.pi_pos]⟩

/-- Auxiliary: `angle_transform` sends `3π/4` to `(π/4, true, false)`. -/
lemma angle_transform_three_pi_div_four :
    angle_transform (3*Real.pi/4) = (Real.pi/4, true, false) := by
  have hpi := Real.pi_pos
  have h1 : 3*Real.pi/4 > Real.pi/4 ∨ 3*Real.pi/4 < -(Real.pi/4) := Or.inl (by linarith)
  have h2 : ¬(3*Real.pi/4 < -(Real.pi/4)) := by
    push_neg
    linarith
  show angle_loop (3*Real.pi/4) true true = (Real.pi/4, true, false)
  rw [angle_loop_eq_pos h1 h2,
    show 3*Real.pi/4 - Real.pi/2 = Real.pi/4 from by ring]
  show angle_loop (Real.pi/4) true false = (Real.pi/4, true, false)
  exact angle_loop_eq_exit not_guard_pi_div_four

/-- C6 counterexample: on input `3π/4` the reduced angle is `π/4`, not the
`-π/4` the claim states. -/
theorem C6_counterexample : (angle_transform (3*Real.pi/4)).1 ≠ -(Real.pi/4) := by
  rw [angle_transform_three_pi_div_four]
  show Real.pi/4 ≠ -(Real.pi/4)
  intro h
  have := Real.pi_pos
  linarith

/-- C6 amended: on input `3π/4` the loop performs exactly one subtraction
step, producing reduced angle `π/4` (not `-π/4`) with the selector flipped
to cosine and the sign positive, and the signed cosine evaluation of the
reduced angle approximates `sin(3π/4)` to within `1e-9`. -/
theorem C6_one_step_to_cosine :
    angle_transform (3*Real.pi/4) = angle_step (3*Real.pi/4, true, true) ∧
    angle_transform (3*Real.pi/4) = (Real.pi/4, true, false) ∧
    |sin4_taylor (fun _ => Real.pi/4) (fun _ => true) (some (fun _ => false)) 0 -
        Real.sin (3*Real.pi/4)| ≤ 1e-9 := by
  have hpi := Real.pi_pos
  have h1 : 3*Real.pi/4 > Real.pi/4 ∨ 3*Real.pi/4 < -(Real.pi/4) := Or.inl (by linarith)
  have h2 : ¬(3*Real.pi/4 < -(Real.pi/4)) := by
    push_neg
    linarith
  refine ⟨?_, angle_transform_three_pi_div_four, ?_⟩
  · rw [angle_transform_three_pi_div_four]
    simp only [angle_step]
    rw [if_pos h1, if_neg h2]
    show (Real.pi/4, true, false) = (3*Real.pi/4 - Real.pi/2, true, false)
    rw [show 3*Real.pi/4 - Real.pi/2 = Real.pi/4 from by ring]
  · have e : sin4_taylor (fun _ => Real.pi/4) (fun _ => true) (some (fun _ => false)) 0 =
        1 - (Real.pi/4)^2/2 + (Real.pi/4)^4/24 - (Real.pi/4)^6/720 + (Real.pi/4)^8/40320
          - (Real.pi/4)^10/3628800 := by
      rw [sin4_taylor_cos_lane _ _ _ 0 rfl]
      norm_num
    have hsin : Real.sin (3*Real.pi/4) = Real.cos (Real.pi/4) := by
      rw [show 3*Real.pi/4 = Real.pi - Real.pi/4 from by ring, Real.sin_pi_sub,
        Real.sin_pi_div_four, Real.cos_pi_div_four]
    rw [e, hsin, abs_sub_comm]
    apply abs_cos_err_le
    rw [abs_of_pos (by positivity)]

/-- C7: with AVX or SSE2 every `sin4_intrin` lane is exactly the degree-3
truncation `x + c3·x³`; with neither, `sin4_intrin` is exactly
`sin4_reference`. -/
theorem C7_intrin_deg3_or_fallback (x : Fin 4 → ℝ) :
    (∀ i, sin4_intrin SimdSupport.avx x i = x i + c3 * (x i)^3) ∧
    (∀ i, sin4_intrin SimdSupport.sse2 x i = x i + c3 * (x i)^3) ∧
    sin4_intrin SimdSupport.nosimd x = sin4_reference x := by
  refine ⟨fun i => ?_, fun i => ?_, rfl⟩ <;>
  · simp only [sin4_intrin]
    ring

/-- C8: `sin4_vector` agrees exactly with `sin4_taylor` invoked without flag
arrays; both compute the degree-11 sine polynomial on every lane. -/
theorem C8_vector_matches_taylor (x : Fin 4 → ℝ) (sv : Fin 4 → Bool) :
    sin4_vector x = sin4_taylor x sv none ∧
    ∀ i, sin4_vector x i = x i + c3 * (x i)^3 + c5 * (x i)^5 + c7 * (x i)^7
      + c9 * (x i)^9 + c11 * (x i)^11 := by
  constructor
  · funext i
    rw [sin4_vector_lane, sin4_taylor_none_lane]
  · intro i
    rw [sin4_vector_lane]
    simp only [c3, c5, c7, c9, c11]
    ring

/-- C10: with `sin_cos_vec = nullptr`, every `sin4_taylor` lane is the plain
degree-11 sine polynomial and is never negated, whatever `sign_vec` holds. -/
theorem C10_null_selector_never_negates (x : Fin 4 → ℝ) (sv : Fin 4 → Bool)
    (i : Fin 4) :
    sin4_taylor x sv none i = x i + c3 * (x i)^3 + c5 * (x i)^5 + c7 * (x i)^7
      + c9 * (x i)^9 + c11 * (x i)^11 := by
  rw [sin4_taylor_none_lane]
  simp only [c3, c5, c7, c9, c11]
  ring

/-- C4 (code bug): at the zero batch every `cos4_vector` lane stores `2`,
while the degree-10 cosine polynomial `1 + c2·x² + ... + c10·x¹⁰` of the
claim (and of the source comment) evaluates to `1` there: the accumulator
adds the leading `1` twice. -/
theorem C4_cos4_vector_doubles_constant :
    (∀ i : Fin 4, cos4_vector (fun _ => (0:ℝ)) i = 2) ∧
    (1:ℝ) + c2 * 0^2 + c4 * 0^4 + c6 * 0^6 + c8 * 0^8 + c10 * 0^10 = 1 := by
  constructor
  · intro i
    simp only [cos4_vector]
    norm_num
  · norm_num

/-- C1: for every finite angle `a`, reducing with `angle_transform` and then
evaluating `sin4_taylor` on the reduced angle with the produced flags (the
degree-11 sine or degree-10 cosine polynomial, sign applied per the sign
flag) yields a value within `1e-9` of the reference `sin a`. -/
theorem C1_reconstruction_within_1e9 (a : ℝ) :
    |sin4_taylor (fun _ => (angle_transform a).1) (fun _ => (angle_transform a).2.1)
        (some (fun _ => (angle_transform a).2.2)) 0 - Real.sin a| ≤ 1e-9 := by
  have key : ∀ m T P : ℝ, |m| = 1 → m * T = Real.sin a → |P - T| ≤ 1e-9 →
      |P * m - Real.sin a| ≤ 1e-9 := by
    intro m T P hm hmt hPT
    rw [← hmt, show P * m - m * T = m * (P - T) from by ring, abs_mul, hm, one_mul]
    exact hPT
  have hmem := angle_loop_mem a true true
  have habs : |(angle_loop a true true).1| ≤ Real.pi/4 := abs_le.mpr hmem
  have hrec := angle_loop_recombine a true true
  have hstart : recombine a true true = Real.sin a := by
    simp [recombine]
  rw [hstart] at hrec
  simp only [angle_transform]
  rcases hT : angle_loop a true true with ⟨r, s, sc⟩
  rw [hT] at hrec habs
  dsimp only at hrec habs
  have hm : |(if s = true then (1:ℝ) else -1)| = 1 := by cases s <;> simp
  cases hsc : sc with
  | false =>
    have e := sin4_taylor_cos_lane (fun _ => r) (fun _ => s) (fun _ => false) 0 rfl
    rw [e]
    simp only
    apply key _ (Real.cos r) _ hm ?_ ?_
    · rw [← hrec, hsc]
      simp [recombine]
    · rw [abs_sub_comm]
      exact abs_cos_err_le r habs
  | true =>
    have e := sin4_taylor_sin_lane (fun _ => r) (fun _ => s) (fun _ => true) 0 rfl
    rw [e]
    simp only
    apply key _ (Real.sin r) _ hm ?_ ?_
    · rw [← hrec, hsc]
      simp [recombine]
    · rw [abs_sub_comm]
      exact abs_sin_err_le r habs

/-- C9: on any 4-lane batch of reduced inputs in `[-π/4, π/4]`, the maximum
absolute error (as computed by `err`) of the degree-3 intrinsic strategy
against the reference is at least that of the degree-11 Taylor and vector
strategies. -/
theorem C9_intrin_error_dominates (x : Fin 4 → ℝ) (hx : ∀ i, |x i| ≤ Real.pi/4)
    (hw : SimdSupport) (hhw : hw ≠ SimdSupport.nosimd) (sv : Fin 4 → Bool) :
    err (sin4_reference x) (sin4_taylor x sv none) ≤
      err (sin4_reference x) (sin4_intrin hw x) ∧
    err (sin4_reference x) (sin4_vector x) ≤
      err (sin4_reference x) (sin4_intrin hw x) := by
  have hdom : ∀ i : Fin 4, |sin4_reference x i - (x i - (x i)^3/6 + (x i)^5/120
      - (x i)^7/5040 + (x i)^9/362880 - (x i)^11/39916800)| ≤
      |sin4_reference x i - sin4_intrin hw x i| := by
    intro i
    rw [sin4_intrin_lane hw hhw]
    simp only [sin4_reference]
    have h1 : |x i| ≤ 1 := le_trans (hx i) (by linarith [Real.pi_le_four])
    exact sin_deg3_dominates (x i) h1
  constructor
  · apply err_le_err
    intro i
    rw [sin4_taylor_none_lane]
    exact hdom i
  · apply err_le_err
    intro i
    rw [sin4_vector_lane]
    exact hdom i

/-- Witness for C9 at the zero batch with AVX support. -/
theorem C9_intrin_error_dominates_witness :
    (∀ i : Fin 4, |(fun _ : Fin 4 => (0:ℝ)) i| ≤ Real.pi/4) ∧
    (err (sin4_reference (fun _ => 0)) (sin4_taylor (fun _ => 0) (fun _ => true) none) ≤
      err (sin4_reference (fun _ => 0)) (sin4_intrin SimdSupport.avx (fun _ => 0)) ∧
    err (sin4_reference (fun _ => 0)) (sin4_vector (fun _ => 0)) ≤
      err (sin4_reference (fun _ => 0)) (sin4_intrin SimdSupport.avx (fun _ => 0))) :=
  ⟨fun _ => by simp [Real.pi_nonneg, le_div_iff₀],
    C9_intrin_error_dominates (fun _ => 0)
      (fun _ => by simp [Real.pi_nonneg, le_div_iff₀]) SimdSupport.avx
      (by simp) (fun _ => true)⟩

end Claims

end FastSin
